import Mathlib

/-!
Verification development for a single-process blockchain ledger
(files `block.py` and `src/blockchain.py` of the repository).

Modelling conventions, chosen to stay faithful to the Python source:

* SHA-256 digests are modelled as a free term algebra `Hsh`: every call
  `hashlib.sha256(payload).hexdigest()` in the source is represented by the
  constructor application that records exactly the payload that was hashed
  (the serialized transaction dict, the concatenation of two child digests,
  the empty byte string, or the serialized block dict).  Constructor
  injectivity of `Hsh` models collision resistance of SHA-256; equalities
  between digests proved here are genuine equalities of the hashed payloads
  and hold for the real hash function as well.
* The hexadecimal rendering of a digest (needed only by the `'0' * difficulty`
  prefix tests of `mine_block` and `Block.is_valid`) is an explicit parameter
  `hex : Hsh → String` of every operation that performs the test.  A real
  SHA-256 hex digest is a 64-character string.
* Python floats (`amount`, `timestamp`) are modelled as `Rat`; `time.time()`
  results are passed in as explicit timestamp arguments.
* The unbounded `while` loops (`mine_block`, the Merkle reduction) are
  modelled with explicit fuel; `calculate_merkle_root` always has sufficient
  fuel, and `mine_block` returns `none` when the fuel is exhausted.
-/

/-- A value-transfer record, `Transaction` of `block.py`: the five fields
serialized by `to_dict`. -/
structure Transaction where
  sender : String
  recipient : String
  amount : Rat
  timestamp : Rat
  signature : Option String
deriving DecidableEq, Repr

instance : Inhabited Transaction := ⟨⟨"", "", 0, 0, none⟩⟩

/-- SHA-256 digests, modelled as a free algebra over the exact payloads the
source hashes.  `raw` embeds literal strings used in hash position (the
genesis `previous_hash` sentinel `"0"`); `txd` is the digest of a serialized
transaction dict (`Transaction.calculate_hash`); `node` is the digest of the
concatenation of two child hex digests (the Merkle step); `empty` is
`sha256(b'')`; `blk` is the digest of the serialized block payload of
`Block.hash_block` (which serializes `index`, `timestamp`, the transaction
dicts, `previous_hash`, `nonce` and `merkle_root` — and neither `difficulty`
nor the stored `hash`). -/
inductive Hsh where
  | raw (s : String)
  | txd (t : Transaction)
  | node (a b : Hsh)
  | empty
  | blk (index : Nat) (timestamp : Rat) (transactions : List Transaction)
        (previous_hash : Hsh) (nonce : Nat) (merkle_root : Hsh)
deriving DecidableEq, Repr

/-- Source `Transaction.calculate_hash`: SHA-256 of the key-sorted JSON serialization
of the five fields. -/
def Transaction.calculate_hash (t : Transaction) : Hsh := Hsh.txd t

/-- A block, `Block` of `block.py`: the six hashed fields plus the stored
`difficulty`, `merkle_root` and `hash` attributes. -/
structure Block where
  index : Nat
  timestamp : Rat
  transactions : List Transaction
  previous_hash : Hsh
  nonce : Nat
  difficulty : Nat
  merkle_root : Hsh
  hash : Hsh
deriving DecidableEq, Repr

instance : Inhabited Block := ⟨⟨0, 0, [], Hsh.raw "", 0, 0, Hsh.empty, Hsh.empty⟩⟩

/-- Source `Block.hash_block`: SHA-256 of the serialized payload holding `index`,
`timestamp`, the transaction dicts, `previous_hash`, `nonce` and
`merkle_root`.  The stored `difficulty` and `hash` fields are not part of the
payload.  (The source wraps the dict in a 1-tuple through a stray trailing
comma; that changes the serialized text but not which fields are hashed.) -/
def Block.hash_block (b : Block) : Hsh :=
  Hsh.blk b.index b.timestamp b.transactions b.previous_hash b.nonce b.merkle_root

/-- One step of the Merkle `if len(tx_hashes) % 2 != 0` padding: duplicate the
last element when the level has odd length. -/
def padOdd (hs : List Hsh) : List Hsh :=
  if hs.length % 2 ≠ 0 then hs ++ [hs.getLastD Hsh.empty] else hs

/-- One Merkle pairing pass: hash the concatenation of each adjacent pair of
hex digests, left to right (`for i in range(0, len(tx_hashes), 2)`). -/
def pairUp : List Hsh → List Hsh
  | a :: b :: rest => Hsh.node a b :: pairUp rest
  | l => l

/-- The `while len(tx_hashes) > 1` reduction loop of `calculate_merkle_root`,
with explicit fuel.  Each iteration pads an odd level and pairs it up; the
level length strictly decreases, so fuel equal to the initial length always
suffices. -/
def merkleRounds : Nat → List Hsh → List Hsh
  | 0, hs => hs
  | fuel + 1, hs => if hs.length ≤ 1 then hs else merkleRounds fuel (pairUp (padOdd hs))

/-- Source `Block.calculate_merkle_root`: the empty list hashes to `sha256(b'')`,
otherwise the transaction hashes are reduced pairwise to a single root
(`tx_hashes[0]` after the loop). -/
def calculate_merkle_root (transactions : List Transaction) : Hsh :=
  if transactions = [] then Hsh.empty
  else
    let tx_hashes := transactions.map Transaction.calculate_hash
    (merkleRounds tx_hashes.length tx_hashes).headD Hsh.empty

/-- Source `Block.__init__`: a block is constructed with its `merkle_root` computed
from the transactions and its `hash` computed from the resulting payload. -/
def mkBlock (index : Nat) (timestamp : Rat) (transactions : List Transaction)
    (previous_hash : Hsh) (nonce : Nat) (difficulty : Nat) : Block :=
  let b : Block :=
    { index := index, timestamp := timestamp, transactions := transactions,
      previous_hash := previous_hash, nonce := nonce, difficulty := difficulty,
      merkle_root := calculate_merkle_root transactions, hash := Hsh.empty }
  { b with hash := b.hash_block }

/-- The difficulty test `s[:difficulty] == '0' * difficulty` on a hex
digest, as used both by the mining loop and (via `startswith`) by
`Block.is_valid`. -/
def prefixOk (s : String) (difficulty : Nat) : Bool :=
  decide (s.data.take difficulty = List.replicate difficulty (Char.ofNat 48))

/-- One iteration of the mining loop body: `self.nonce += 1` followed by
`self.hash = self.hash_block()`. -/
def mineStep (b : Block) : Block :=
  let b1 : Block := { b with nonce := b.nonce + 1 }
  { b1 with hash := b1.hash_block }

/-- The `while self.hash[:difficulty] != target` search of `mine_block`, with
explicit fuel (`none` = the search did not finish within the given fuel;
the source loop is unbounded). -/
def mineLoop (hex : Hsh → String) (difficulty : Nat) : Nat → Block → Option Block
  | 0, _ => none
  | fuel + 1, b =>
    if prefixOk (hex b.hash) difficulty then some b
    else mineLoop hex difficulty fuel (mineStep b)

/-- Source `Block.mine_block(difficulty)`: run the nonce search; on success the
mutated block (updated `nonce` and `hash`) is the result. -/
def Block.mine_block (hex : Hsh → String) (b : Block) (difficulty : Nat)
    (fuel : Nat) : Option Block :=
  mineLoop hex difficulty fuel b

/-- Source `Block.is_valid(previous_block)`: recomputed hash, recomputed Merkle root,
difficulty prefix of the stored hash, and (when a predecessor is supplied)
linkage of `previous_hash` and `index`; the checks fail in source order. -/
def Block.is_valid (hex : Hsh → String) (b : Block) (previous : Option Block) : Bool :=
  if b.hash ≠ b.hash_block then false
  else if b.merkle_root ≠ calculate_merkle_root b.transactions then false
  else if prefixOk (hex b.hash) b.difficulty = false then false
  else
    match previous with
    | some p =>
      if b.previous_hash ≠ p.hash then false
      else if b.index ≠ p.index + 1 then false
      else true
    | none => true

/-- The ledger, `Blockchain` of `src/blockchain.py`. -/
structure Blockchain where
  chain : List Block
  difficulty : Nat
  mining_reward : Rat
  pending_transactions : List Transaction
deriving DecidableEq, Repr

instance : Inhabited Blockchain := ⟨⟨[], 0, 0, []⟩⟩

/-- Source `Blockchain.__init__` followed by `create_genesis_block`: the fresh ledger
holds exactly the genesis block, wrapping the `GENESIS` → `GENESIS` amount-0
transaction, at index 0 with `previous_hash = "0"` and nonce 0 (genesis is not
mined).  The two `time.time()` readings are the explicit arguments `t_tx`
(genesis transaction timestamp) and `t_blk` (genesis block timestamp). -/
def initBlockchain (difficulty : Nat) (mining_reward : Rat) (t_tx t_blk : Rat) :
    Blockchain :=
  let genesis_transaction : Transaction := ⟨"GENESIS", "GENESIS", 0, t_tx, none⟩
  let genesis_block := mkBlock 0 t_blk [genesis_transaction] (Hsh.raw "0") 0 difficulty
  { chain := [genesis_block], difficulty := difficulty,
    mining_reward := mining_reward, pending_transactions := [] }

/-- Source `get_latest_block`: `self.chain[-1]`. -/
def get_latest_block (bc : Blockchain) : Block :=
  bc.chain.getLastD default

/-- Source `get_balance`: fold every block's transactions (recipient credits, sender
debits), then debit every pending transaction whose sender is the address. -/
def get_balance (bc : Blockchain) (address : String) : Rat :=
  let chain_balance :=
    bc.chain.foldl
      (fun acc block =>
        block.transactions.foldl
          (fun acc2 t =>
            let acc3 := if t.recipient = address then acc2 + t.amount else acc2
            if t.sender = address then acc3 - t.amount else acc3)
          acc)
      0
  bc.pending_transactions.foldl
    (fun acc t => if t.sender = address then acc - t.amount else acc)
    chain_balance

/-- Source `is_valid_transaction`: reserved senders are accepted outright; otherwise
the amount must be positive, the addresses non-empty and distinct. -/
def is_valid_transaction (t : Transaction) : Bool :=
  if t.sender = "GENESIS" ∨ t.sender = "MINING_REWARD" then true
  else if t.amount ≤ 0 then false
  else if t.sender = "" ∨ t.recipient = "" then false
  else if t.sender = t.recipient then false
  else true

/-- Source `add_transaction`: validate, then (for any sender other than
`MINING_REWARD`, including `GENESIS`) check the derived balance; on success
append to the pending pool.  Returns the boolean result paired with the
resulting ledger state. -/
def add_transaction (bc : Blockchain) (t : Transaction) : Bool × Blockchain :=
  if is_valid_transaction t = false then (false, bc)
  else if t.sender ≠ "MINING_REWARD" ∧ get_balance bc t.sender < t.amount then
    (false, bc)
  else (true, { bc with pending_transactions := bc.pending_transactions ++ [t] })

/-- Source `mine_pending_transactions(mining_reward_address)`: synthesize the reward
transaction, prepend it to the pool, build a block at `index = len(chain)`
over the latest block's hash, mine it, append it and clear the pool.  `t_tx`
and `t_blk` are the two `time.time()` readings; `fuel` bounds the mining
search (`none` = the unbounded source loop did not finish). -/
def mine_pending_transactions (hex : Hsh → String) (bc : Blockchain)
    (mining_reward_address : String) (t_tx t_blk : Rat) (fuel : Nat) :
    Option (Block × Blockchain) :=
  let reward_transaction : Transaction :=
    ⟨"MINING_REWARD", mining_reward_address, bc.mining_reward, t_tx, none⟩
  let transactions := reward_transaction :: bc.pending_transactions
  let new_block :=
    mkBlock bc.chain.length t_blk transactions (get_latest_block bc).hash 0 bc.difficulty
  match Block.mine_block hex new_block bc.difficulty fuel with
  | none => none
  | some mined =>
    some (mined, { bc with chain := bc.chain ++ [mined], pending_transactions := [] })

/-- The `for i in range(1, len(self.chain))` loop of `is_chain_valid`: every
block from position 1 on must be valid against its predecessor. -/
def chainLinksValid (hex : Hsh → String) : List Block → Bool
  | a :: b :: rest => Block.is_valid hex b (some a) && chainLinksValid hex (b :: rest)
  | _ => true

/-- Source `is_chain_valid` on a bare chain list: non-empty, and every adjacent pair
valid.  (The method reads only `self.chain`.) -/
def is_chain_valid_list (hex : Hsh → String) (c : List Block) : Bool :=
  if c.length = 0 then false else chainLinksValid hex c

/-- Source `is_chain_valid`. -/
def is_chain_valid (hex : Hsh → String) (bc : Blockchain) : Bool :=
  is_chain_valid_list hex bc.chain

/-- Source `replace_chain(new_chain)`: reject when the candidate is not strictly
longer, or when it fails chain validation; otherwise swap the chain wholesale.
The source validates through a temporary `Blockchain` whose `chain` attribute
is overwritten by the candidate, and `is_chain_valid` reads only that
attribute, so this equals validating the candidate list directly.  Returns
the boolean result paired with the resulting ledger state. -/
def replace_chain (hex : Hsh → String) (bc : Blockchain) (new_chain : List Block) :
    Bool × Blockchain :=
  if new_chain.length ≤ bc.chain.length then (false, bc)
  else if is_chain_valid_list hex new_chain = false then (false, bc)
  else (true, { bc with chain := new_chain })

/-- The k-th state of the mining search: k applications of the loop body to
the starting block. -/
def mineIter (b : Block) : Nat → Block
  | 0 => b
  | k + 1 => mineStep (mineIter b k)

/-- Whether the unbounded mining loop of the source terminates on a given
block and difficulty: some fuel suffices for the fuelled model. -/
def MineTerminates (hex : Hsh → String) (b : Block) (difficulty : Nat) : Prop :=
  ∃ fuel r, mineLoop hex difficulty fuel b = some r

/-- The chain invariant stated by the specification: non-empty, position i
holds index i, and each block points at its predecessor's stored hash. -/
def chainInvariant (bc : Blockchain) : Prop :=
  bc.chain ≠ [] ∧
  (∀ i (h : i < bc.chain.length), (bc.chain.get ⟨i, h⟩).index = i) ∧
  (∀ i (h : i + 1 < bc.chain.length),
    (bc.chain.get ⟨i + 1, h⟩).previous_hash = (bc.chain.get ⟨i, by omega⟩).hash)

/-- In-place mutation of one stored transaction's `amount` field (the
tampering scenario of the specification): the stored `merkle_root` and
`hash` fields keep their stale values, exactly as after a Python field
assignment. -/
def tamperBlock (b : Block) (j : Nat) (a : Rat) : Block :=
  { b with transactions :=
      b.transactions.set j { b.transactions.getD j default with amount := a } }

/-- A trivial hex rendering used to instantiate the abstract digest renderer
in concrete scenarios whose difficulty is 0 (the prefix test at difficulty 0
accepts every string). -/
def hex0 : Hsh → String := fun _ => ""

/-- A hex rendering whose outputs are 64-character strings, the length of
every real SHA-256 hex digest. -/
def hex64 : Hsh → String := fun _ => String.mk (List.replicate 64 (Char.ofNat 48))

/-- A fresh ledger with difficulty 2 (the source defaults). -/
def ledger0 : Blockchain := initBlockchain 2 10 0 0

/-- A fresh ledger with difficulty 0, on which mining succeeds at once. -/
def bcDiff0 : Blockchain := initBlockchain 0 10 0 0

/-- A transaction whose sender is the reserved identifier `GENESIS`. -/
def genesisTx : Transaction := ⟨"GENESIS", "alice", 5, 0, none⟩

/-- A transaction whose sender is the reserved identifier `MINING_REWARD`. -/
def rewardTx : Transaction := ⟨"MINING_REWARD", "bob", 10, 0, none⟩

/-- An ordinary transaction from a sender with derived balance 0. -/
def plainTx : Transaction := ⟨"alice", "bob", 5, 0, none⟩

/-- Sample transactions for the Merkle-root scenarios. -/
def txA : Transaction := ⟨"a", "b", 1, 0, none⟩

def txB : Transaction := ⟨"c", "d", 2, 0, none⟩

/-- A difficulty-0 block at index 1, freshly constructed (its stored hash and
Merkle root are consistent by construction). -/
def cexB1 : Block := mkBlock 1 0 [] (Hsh.raw "x") 0 0

/-- A difficulty-0 block at index 2 chained onto `cexB1`. -/
def cexB2 : Block := mkBlock 2 0 [] cexB1.hash 0 0

/-- The result of mining one block (difficulty 0, instant success) on a fresh
ledger: the mined block paired with the two-block ledger. -/
def minedPair : Block × Blockchain :=
  (mine_pending_transactions hex0 bcDiff0 "miner" 0 0 1).getD default

/-- The genesis block of `minedPair` with its transaction's amount mutated in
place from 0 to 999: stored `merkle_root` and `hash` are left stale. -/
def gTampered : Block :=
  { minedPair.2.chain.headD default with
      transactions := [⟨"GENESIS", "GENESIS", 999, 0, none⟩] }

/-- The two-block ledger of `minedPair` with its genesis block tampered. -/
def tamperedLedger : Blockchain :=
  { minedPair.2 with chain := [gTampered, minedPair.2.chain.getLastD default] }

/-- A freshly constructed block used for the difficulty-65 mining scenario. -/
def mineCexBlock : Block := mkBlock 0 0 [] (Hsh.raw "0") 0 65

/-- Two blocks agreeing on the six hashed fields but differing in both
`difficulty` and the stored `hash`. -/
def blk9a : Block := ⟨0, 0, [txA], Hsh.raw "p", 3, 2, Hsh.empty, Hsh.raw "h1"⟩

def blk9b : Block := ⟨0, 0, [txA], Hsh.raw "p", 3, 7, Hsh.empty, Hsh.raw "h2"⟩

/-- The two-block ledger of `minedPair` with the amount of the first
transaction of the block at position 1 mutated in place to 999. -/
def tamperedTail : Blockchain :=
  { minedPair.2 with
      chain := minedPair.2.chain.set 1
        (tamperBlock (minedPair.2.chain.getD 1 default) 0 999) }

/-- The ledger produced by replacing the fresh chain with the two
freshly-built index-1/index-2 blocks. -/
def replacedLedger : Blockchain := (replace_chain hex0 ledger0 [cexB1, cexB2]).2

theorem pairUp_length : ∀ l : List Hsh, (pairUp l).length = (l.length + 1) / 2
  | [] => by simp [pairUp]
  | [_] => by simp [pairUp]
  | a :: b :: r => by
    simp only [pairUp, List.length_cons, pairUp_length r]
    omega

theorem padOdd_length (l : List Hsh) :
    (padOdd l).length = if l.length % 2 = 0 then l.length else l.length + 1 := by
  unfold padOdd
  split <;> rename_i h <;> simp_all

theorem reduce_length_lt {l : List Hsh} (h : 2 ≤ l.length) :
    (pairUp (padOdd l)).length < l.length := by
  have h1 := pairUp_length (padOdd l)
  rw [padOdd_length] at h1
  split at h1 <;> omega

theorem reduce_length_pos {l : List Hsh} (h : 2 ≤ l.length) :
    1 ≤ (pairUp (padOdd l)).length := by
  have h1 := pairUp_length (padOdd l)
  rw [padOdd_length] at h1
  split at h1 <;> omega

theorem merkleRounds_nil (fuel : Nat) : merkleRounds fuel [] = [] := by
  cases fuel <;> simp [merkleRounds]

theorem merkleRounds_fuel :
    ∀ (f₁ f₂ : Nat) (l : List Hsh), l.length ≤ f₁ → l.length ≤ f₂ →
      merkleRounds f₁ l = merkleRounds f₂ l := by
  intro f₁
  induction f₁ with
  | zero =>
    intro f₂ l h1 _
    have : l = [] := List.length_eq_zero.mp (Nat.le_zero.mp h1)
    subst this
    simp [merkleRounds_nil]
  | succ f ih =>
    intro f₂ l h1 h2
    cases f₂ with
    | zero =>
      have : l = [] := List.length_eq_zero.mp (Nat.le_zero.mp h2)
      subst this
      simp [merkleRounds_nil]
    | succ g =>
      simp only [merkleRounds]
      split
      · rfl
      · rename_i hlen
        have hl : 2 ≤ l.length := by omega
        have hlt := reduce_length_lt hl
        exact ih g (pairUp (padOdd l)) (by omega) (by omega)

theorem merkleRounds_length_one :
    ∀ (fuel : Nat) (l : List Hsh), l ≠ [] → l.length ≤ fuel →
      (merkleRounds fuel l).length = 1 := by
  intro fuel
  induction fuel with
  | zero =>
    intro l hne hlen
    exact absurd (List.length_eq_zero.mp (Nat.le_zero.mp hlen)) hne
  | succ f ih =>
    intro l hne hlen
    simp only [merkleRounds]
    split
    · rename_i hle
      have : 1 ≤ l.length := List.length_pos.mpr hne
      omega
    · rename_i hgt
      have hl : 2 ≤ l.length := by omega
      have hlt := reduce_length_lt hl
      have hpos := reduce_length_pos hl
      exact ih _ (by rw [← List.length_pos]; omega) (by omega)

theorem mineLoop_some (hex : Hsh → String) (d : Nat) :
    ∀ (fuel : Nat) (b r : Block), mineLoop hex d fuel b = some r →
      r.index = b.index ∧ r.timestamp = b.timestamp ∧
      r.transactions = b.transactions ∧ r.previous_hash = b.previous_hash ∧
      r.merkle_root = b.merkle_root ∧ r.difficulty = b.difficulty ∧
      prefixOk (hex r.hash) d = true ∧ (b.hash = b.hash_block → r.hash = r.hash_block) := by
  intro fuel
  induction fuel with
  | zero => intro b r h; simp [mineLoop] at h
  | succ f ih =>
    intro b r h
    simp only [mineLoop] at h
    split at h
    · rename_i hpre
      cases h
      exact ⟨rfl, rfl, rfl, rfl, rfl, rfl, hpre, fun hc => hc⟩
    · obtain ⟨h1, h2, h3, h4, h5, h6, h7, h8⟩ := ih (mineStep b) r h
      refine ⟨h1, h2, h3, h4, h5, h6, h7, fun _ => h8 rfl⟩

theorem mineIter_swap (b : Block) : ∀ k, mineIter (mineStep b) k = mineStep (mineIter b k)
  | 0 => rfl
  | k + 1 => by simp [mineIter, mineIter_swap b k]

theorem mineLoop_complete (hex : Hsh → String) (d : Nat) :
    ∀ (k : Nat) (b : Block), prefixOk (hex (mineIter b k).hash) d = true →
      MineTerminates hex b d := by
  intro k
  induction k with
  | zero =>
    intro b h
    exact ⟨1, b, by simp [mineLoop, mineIter] at h ⊢; simp [h]⟩
  | succ k ih =>
    intro b h
    by_cases hb : prefixOk (hex b.hash) d = true
    · exact ⟨1, b, by simp [mineLoop, hb]⟩
    · have h2 : prefixOk (hex (mineIter (mineStep b) k).hash) d = true := by
        rw [mineIter_swap]
        exact h
      obtain ⟨fuel, r, hr⟩ := ih (mineStep b) h2
      refine ⟨fuel + 1, r, ?_⟩
      simp only [mineLoop]
      rw [if_neg (by simp [hb])]
      exact hr

theorem prefixOk_zero (s : String) : prefixOk s 0 = true := by
  simp [prefixOk]

theorem mineLoop_zero_fuel_succ (hex : Hsh → String) (fuel : Nat) (b : Block) :
    mineLoop hex 0 (fuel + 1) b = some b := by
  simp [mineLoop, prefixOk_zero]

theorem mkBlock_hash_consistent (index : Nat) (timestamp : Rat)
    (transactions : List Transaction) (previous_hash : Hsh) (nonce difficulty : Nat) :
    (mkBlock index timestamp transactions previous_hash nonce difficulty).hash =
      (mkBlock index timestamp transactions previous_hash nonce difficulty).hash_block := rfl

theorem mineStep_hash_consistent (b : Block) : (mineStep b).hash = (mineStep b).hash_block := rfl

/-- The pairwise loop of `is_chain_valid` as a `Chain'` relation. -/
theorem chainLinksValid_eq_chain' (hex : Hsh → String) :
    ∀ c : List Block,
      chainLinksValid hex c = true ↔
        List.Chain' (fun a b => Block.is_valid hex b (some a) = true) c
  | [] => by simp [chainLinksValid]
  | [a] => by simp [chainLinksValid]
  | a :: b :: rest => by
    rw [List.chain'_cons]
    have ih := chainLinksValid_eq_chain' hex (b :: rest)
    simp only [chainLinksValid, Bool.and_eq_true]
    rw [ih]

theorem is_valid_spec (hex : Hsh → String) (b p : Block)
    (h : Block.is_valid hex b (some p) = true) :
    b.hash = b.hash_block ∧ b.merkle_root = calculate_merkle_root b.transactions ∧
    prefixOk (hex b.hash) b.difficulty = true ∧
    b.previous_hash = p.hash ∧ b.index = p.index + 1 := by
  unfold Block.is_valid at h
  dsimp only at h
  split_ifs at h with h1 h2 h3 h4 h5
  · exact ⟨not_not.mp h1, not_not.mp h2, eq_true_of_ne_false h3,
      not_not.mp h4, not_not.mp h5⟩

theorem is_valid_intro (hex : Hsh → String) (b p : Block)
    (h1 : b.hash = b.hash_block) (h2 : b.merkle_root = calculate_merkle_root b.transactions)
    (h3 : prefixOk (hex b.hash) b.difficulty = true)
    (h4 : b.previous_hash = p.hash) (h5 : b.index = p.index + 1) :
    Block.is_valid hex b (some p) = true := by
  unfold Block.is_valid
  dsimp only
  rw [if_neg (not_not.mpr h1), if_neg (not_not.mpr h2), if_neg (by simp [h3]),
    if_neg (not_not.mpr h4), if_neg (not_not.mpr h5)]

theorem is_valid_false_of_hash (hex : Hsh → String) (b : Block) (p : Option Block)
    (h : b.hash ≠ b.hash_block) : Block.is_valid hex b p = false := by
  unfold Block.is_valid
  simp [h]

theorem foldl_add_shift {α : Type} (g : Rat → α → Rat) (f : α → Rat)
    (hg : ∀ a x, g a x = a + f x) :
    ∀ (l : List α) (a : Rat), l.foldl g a = a + (l.map f).sum := by
  intro l
  induction l with
  | nil => intro a; simp
  | cons x l ih =>
    intro a
    rw [List.foldl_cons, hg, List.map_cons, List.sum_cons, ih]
    ring

theorem sum_map_neg {α : Type} (f : α → Rat) :
    ∀ l : List α, (l.map (fun x => -(f x))).sum = -((l.map f).sum)
  | [] => by simp
  | x :: l => by
    simp only [List.map_cons, List.sum_cons, sum_map_neg f l]
    ring

/-- Claim C6: `get_balance(address)` equals the sum over all transactions in
all chain blocks of (+amount when the address is the recipient, and −amount
when the address is the sender), minus the amount of every pending
transaction whose sender is the address; pending credits contribute
nothing. -/
theorem get_balance_spec (bc : Blockchain) (address : String) :
    get_balance bc address =
      (bc.chain.map (fun block =>
        (block.transactions.map (fun t =>
          (if t.recipient = address then t.amount else 0) +
          (if t.sender = address then -t.amount else 0))).sum)).sum -
      (bc.pending_transactions.map (fun t =>
        if t.sender = address then t.amount else 0)).sum := by
  unfold get_balance
  have hstep : ∀ (acc2 : Rat) (t : Transaction),
      (fun acc2 t =>
        let acc3 := if t.recipient = address then acc2 + t.amount else acc2
        if t.sender = address then acc3 - t.amount else acc3) acc2 t =
      acc2 + ((if t.recipient = address then t.amount else 0) +
              (if t.sender = address then -t.amount else 0)) := by
    intro acc2 t
    dsimp only
    split_ifs <;> ring
  have houter : ∀ (acc : Rat) (block : Block),
      (fun acc block =>
        block.transactions.foldl
          (fun acc2 t =>
            let acc3 := if t.recipient = address then acc2 + t.amount else acc2
            if t.sender = address then acc3 - t.amount else acc3)
          acc) acc block =
      acc + (block.transactions.map (fun t =>
        (if t.recipient = address then t.amount else 0) +
        (if t.sender = address then -t.amount else 0))).sum := by
    intro acc block
    exact foldl_add_shift _ _ hstep block.transactions acc
  have hpend : ∀ (acc : Rat) (t : Transaction),
      (fun acc t => if t.sender = address then acc - t.amount else acc) acc t =
      acc + (-(if t.sender = address then t.amount else 0)) := by
    intro acc t
    dsimp only
    split_ifs <;> ring
  rw [foldl_add_shift _ _ houter bc.chain 0,
    foldl_add_shift _ _ hpend bc.pending_transactions, sum_map_neg]
  ring

/-- Claim C9: the block hash payload excludes the `difficulty` and stored
`hash` fields, so two blocks agreeing on `index`, `timestamp`,
`transactions`, `previous_hash`, `nonce` and `merkle_root` have the same
`hash_block` regardless of those two fields. -/
theorem hash_block_independent (b1 b2 : Block)
    (h1 : b1.index = b2.index) (h2 : b1.timestamp = b2.timestamp)
    (h3 : b1.transactions = b2.transactions) (h4 : b1.previous_hash = b2.previous_hash)
    (h5 : b1.nonce = b2.nonce) (h6 : b1.merkle_root = b2.merkle_root) :
    b1.hash_block = b2.hash_block := by
  unfold Block.hash_block
  rw [h1, h2, h3, h4, h5, h6]

/-- Witness for C9: two concrete blocks differing in `difficulty` and in the
stored `hash` share the same `hash_block`. -/
theorem hash_block_independent_witness :
    blk9a.difficulty ≠ blk9b.difficulty ∧ blk9a.hash ≠ blk9b.hash ∧
    blk9a.hash_block = blk9b.hash_block :=
  ⟨by decide, by decide, hash_block_independent blk9a blk9b rfl rfl rfl rfl rfl rfl⟩

/-- Claim C10: a rejected `add_transaction` call leaves the ledger state
(pending pool and chain) exactly as it was. -/
theorem add_transaction_rejection_atomic (bc : Blockchain) (t : Transaction)
    (h : (add_transaction bc t).1 = false) : (add_transaction bc t).2 = bc := by
  unfold add_transaction at h ⊢
  split_ifs at h ⊢ <;> simp_all

/-- Witness for C10: a concrete rejected transaction (ordinary sender with
derived balance 0) leaves the fresh ledger unchanged. -/
theorem add_transaction_rejection_atomic_witness :
    (add_transaction ledger0 plainTx).2 = ledger0 :=
  add_transaction_rejection_atomic ledger0 plainTx (by with_unfolding_all decide)

/-- Claim C5: `replace_chain` returns false when the candidate is not
strictly longer or fails chain validation, and every false return leaves the
ledger exactly as it was. -/
theorem replace_chain_spec (hex : Hsh → String) (bc : Blockchain) (c : List Block) :
    ((c.length ≤ bc.chain.length ∨ is_chain_valid_list hex c = false) →
      replace_chain hex bc c = (false, bc)) ∧
    ((replace_chain hex bc c).1 = false → (replace_chain hex bc c).2 = bc) := by
  constructor
  · intro h
    unfold replace_chain
    rcases h with h | h
    · rw [if_pos h]
    · split_ifs <;> simp_all
  · intro h
    unfold replace_chain at h ⊢
    split_ifs at h ⊢ <;> simp_all

/-- Witness for C5: the empty candidate (not longer than the fresh chain) is
rejected and the ledger is unchanged. -/
theorem replace_chain_spec_witness :
    replace_chain hex0 ledger0 [] = (false, ledger0) :=
  (replace_chain_spec hex0 ledger0 []).1 (Or.inl (by with_unfolding_all decide))

/-- Counterexample to claim C1: a transaction whose sender is the reserved
identifier `GENESIS` is rejected by `add_transaction` on a fresh ledger
(derived balance of `GENESIS` is 0, below the amount 5), because the source
only exempts `MINING_REWARD` from the balance check. -/
theorem add_transaction_genesis_cex :
    genesisTx.sender = "GENESIS" ∧
    add_transaction ledger0 genesisTx = (false, ledger0) :=
  ⟨rfl, by with_unfolding_all decide⟩

/-- Claim C1 (amended): a transaction whose sender is `MINING_REWARD` is
always accepted and appended to the pending pool; a transaction whose sender
is `GENESIS` passes the validity checks but remains subject to the balance
check, so it is accepted exactly when the sender's derived balance is at
least the amount. -/
theorem add_transaction_reserved_senders (bc : Blockchain) (t : Transaction) :
    (t.sender = "MINING_REWARD" →
      add_transaction bc t =
        (true, { bc with pending_transactions := bc.pending_transactions ++ [t] })) ∧
    (t.sender = "GENESIS" →
      add_transaction bc t =
        if get_balance bc t.sender < t.amount then (false, bc)
        else (true, { bc with pending_transactions := bc.pending_transactions ++ [t] })) := by
  constructor
  · intro hs
    have hv : is_valid_transaction t = true := by
      unfold is_valid_transaction
      rw [if_pos (Or.inr hs)]
    unfold add_transaction
    rw [if_neg (by simp [hv]), if_neg (fun hc => hc.1 hs)]
  · intro hs
    have hv : is_valid_transaction t = true := by
      unfold is_valid_transaction
      rw [if_pos (Or.inl hs)]
    have hns : t.sender ≠ "MINING_REWARD" := by rw [hs]; decide
    unfold add_transaction
    rw [if_neg (by simp [hv])]
    by_cases hb : get_balance bc t.sender < t.amount
    · rw [if_pos ⟨hns, hb⟩, if_pos hb]
    · rw [if_neg (fun hc => hb hc.2), if_neg hb]

/-- Witness for C1 (amended): a concrete `MINING_REWARD` transaction is
accepted and appended on the fresh ledger. -/
theorem add_transaction_reserved_senders_witness :
    add_transaction ledger0 rewardTx =
      (true, { ledger0 with
        pending_transactions := ledger0.pending_transactions ++ [rewardTx] }) :=
  (add_transaction_reserved_senders ledger0 rewardTx).1 rfl

theorem getLastD_of_getLast? {α : Type} {l : List α} {x : α} (h : l.getLast? = some x)
    (d : α) : l.getLastD d = x := by
  rw [List.getLastD_eq_getLast?, h]
  rfl

theorem mine_pending_structure (hex : Hsh → String) (bc : Blockchain) (addr : String)
    (t1 t2 : Rat) (fuel : Nat) (blk : Block) (bc2 : Blockchain)
    (h : mine_pending_transactions hex bc addr t1 t2 fuel = some (blk, bc2)) :
    blk.transactions =
      (⟨"MINING_REWARD", addr, bc.mining_reward, t1, none⟩ : Transaction) ::
        bc.pending_transactions ∧
    blk.index = bc.chain.length ∧
    blk.previous_hash = (get_latest_block bc).hash ∧
    blk.merkle_root = calculate_merkle_root blk.transactions ∧
    blk.hash = blk.hash_block ∧
    blk.difficulty = bc.difficulty ∧
    prefixOk (hex blk.hash) bc.difficulty = true ∧
    bc2 = { bc with chain := bc.chain ++ [blk], pending_transactions := [] } := by
  unfold mine_pending_transactions at h
  dsimp only at h
  split at h
  · exact absurd h (by simp)
  · rename_i mined heq
    simp only [Option.some.injEq, Prod.mk.injEq] at h
    obtain ⟨rfl, rfl⟩ := h
    obtain ⟨h1, h2, h3, h4, h5, h6, h7, h8⟩ :=
      mineLoop_some hex bc.difficulty fuel _ mined heq
    refine ⟨?_, h1, h4, ?_, h8 rfl, h6, h7, rfl⟩
    · exact h3
    · rw [h5, h3]; rfl

/-- Claim C4: a successful `mine_pending_transactions(reward_address)` call
produces a block whose transaction list is exactly the synthesized reward
transaction (`MINING_REWARD` → reward_address, amount = `mining_reward`)
followed by the prior pending pool in order, whose index is the prior chain
length and whose `previous_hash` is the prior latest block's hash; the block
is appended to the chain and the pending pool is left empty. -/
theorem mine_pending_spec (hex : Hsh → String) (bc : Blockchain) (addr : String)
    (t1 t2 : Rat) (fuel : Nat) (blk : Block) (bc2 : Blockchain)
    (h : mine_pending_transactions hex bc addr t1 t2 fuel = some (blk, bc2)) :
    blk.transactions =
      (⟨"MINING_REWARD", addr, bc.mining_reward, t1, none⟩ : Transaction) ::
        bc.pending_transactions ∧
    blk.index = bc.chain.length ∧
    blk.previous_hash = (get_latest_block bc).hash ∧
    bc2.chain = bc.chain ++ [blk] ∧
    bc2.pending_transactions = [] := by
  obtain ⟨h1, h2, h3, -, -, -, -, rfl⟩ := mine_pending_structure hex bc addr t1 t2 fuel blk bc2 h
  exact ⟨h1, h2, h3, rfl, rfl⟩

/-- Witness for C4: mining on the fresh difficulty-0 ledger with one unit of
fuel succeeds and exhibits the stated structure. -/
theorem mine_pending_spec_witness :
    minedPair.1.transactions =
      (⟨"MINING_REWARD", "miner", bcDiff0.mining_reward, 0, none⟩ : Transaction) ::
        bcDiff0.pending_transactions ∧
    minedPair.1.index = bcDiff0.chain.length ∧
    minedPair.1.previous_hash = (get_latest_block bcDiff0).hash ∧
    minedPair.2.chain = bcDiff0.chain ++ [minedPair.1] ∧
    minedPair.2.pending_transactions = [] :=
  mine_pending_spec hex0 bcDiff0 "miner" 0 0 1 minedPair.1 minedPair.2
    (by with_unfolding_all decide)

theorem mineLoop_none_of_prefix_false (hex : Hsh → String) (d : Nat)
    (hpre : ∀ h, prefixOk (hex h) d = false) :
    ∀ (fuel : Nat) (b : Block), mineLoop hex d fuel b = none := by
  intro fuel
  induction fuel with
  | zero => intro b; rfl
  | succ f ih =>
    intro b
    simp only [mineLoop, hpre b.hash]
    simp only [Bool.false_eq_true, if_false]
    exact ih (mineStep b)

/-- Counterexample to claim C8: mining does not terminate for every block and
difficulty.  Every real SHA-256 hex digest has exactly 64 characters, so
`hash[:65]` can never equal the 65-character target `'0' * 65`; with a
64-character-valued renderer, the difficulty-65 search returns no result for
any amount of fuel. -/
theorem mine_block_65_cex : ¬ MineTerminates hex64 mineCexBlock 65 := by
  rintro ⟨fuel, r, hr⟩
  rw [mineLoop_none_of_prefix_false hex64 65 (fun h => rfl) fuel mineCexBlock] at hr
  exact Option.noConfusion hr

/-- Claim C8 (amended): for difficulty 0 the mining search performs no work
and returns the block unchanged (any positive fuel); whenever the search
returns a block, that block's stored hash passes the difficulty prefix test
and only `nonce` and `hash` were changed; and the search terminates whenever
some iterate of the loop body satisfies the prefix test.  Termination for
every block and difficulty is refuted by the difficulty-65 counterexample. -/
theorem mine_block_spec (hex : Hsh → String) (b : Block) (d : Nat) :
    (∀ fuel, Block.mine_block hex b 0 (fuel + 1) = some b) ∧
    (∀ fuel r, Block.mine_block hex b d fuel = some r →
      prefixOk (hex r.hash) d = true ∧ r.index = b.index ∧ r.timestamp = b.timestamp ∧
      r.transactions = b.transactions ∧ r.previous_hash = b.previous_hash ∧
      r.merkle_root = b.merkle_root ∧ r.difficulty = b.difficulty) ∧
    (∀ k, prefixOk (hex (mineIter b k).hash) d = true → MineTerminates hex b d) := by
  refine ⟨fun fuel => mineLoop_zero_fuel_succ hex fuel b, ?_,
    fun k h => mineLoop_complete hex d k b h⟩
  intro fuel r h
  obtain ⟨h1, h2, h3, h4, h5, h6, h7, -⟩ := mineLoop_some hex d fuel b r h
  exact ⟨h7, h1, h2, h3, h4, h5, h6⟩

/-- Witness for C8 (amended): at difficulty 0 the concrete block is returned
unchanged, its rendered hash passes the trivial prefix test, and the search
terminates. -/
theorem mine_block_spec_witness :
    Block.mine_block hex0 cexB1 0 1 = some cexB1 ∧
    prefixOk (hex0 cexB1.hash) 0 = true ∧
    MineTerminates hex0 cexB1 0 :=
  ⟨(mine_block_spec hex0 cexB1 0).1 0,
    ((mine_block_spec hex0 cexB1 0).2.1 1 cexB1 (by with_unfolding_all decide)).1,
    (mine_block_spec hex0 cexB1 0).2.2 0 (by with_unfolding_all decide)⟩

theorem getLastD_eq_get {α : Type} [Inhabited α] (l : List α) (h : l ≠ [])
    (hl : l.length - 1 < l.length) :
    l.getLastD default = l.get ⟨l.length - 1, hl⟩ := by
  rw [List.getLastD_eq_getLast?, List.getLast?_eq_getLast l h]
  simp [List.getLast_eq_get]

theorem append_keeps_invariant (c : List Block) (b : Block)
    (hidx : ∀ i (h : i < c.length), (c.get ⟨i, h⟩).index = i)
    (hlink : ∀ i (h : i + 1 < c.length),
      (c.get ⟨i + 1, h⟩).previous_hash = (c.get ⟨i, by omega⟩).hash)
    (hbidx : b.index = c.length)
    (hbprev : c ≠ [] → b.previous_hash = (c.getLastD default).hash) :
    (∀ i (h : i < (c ++ [b]).length), ((c ++ [b]).get ⟨i, h⟩).index = i) ∧
    (∀ i (h : i + 1 < (c ++ [b]).length),
      ((c ++ [b]).get ⟨i + 1, h⟩).previous_hash = ((c ++ [b]).get ⟨i, by omega⟩).hash) := by
  have hlen : (c ++ [b]).length = c.length + 1 := by simp
  constructor
  · intro i h
    rcases Nat.lt_or_ge i c.length with hi | hi
    · rw [List.get_append_left c [b] hi]
      exact hidx i hi
    · have hieq : i = c.length := by omega
      subst hieq
      have hgb : (c ++ [b]).get ⟨c.length, h⟩ = b := by
        rw [List.get_eq_getElem]
        exact List.getElem_concat_length c b c.length rfl _
      rw [hgb, hbidx]
  · intro i h
    rcases Nat.lt_or_ge (i + 1) c.length with hi | hi
    · rw [List.get_append_left c [b] hi, List.get_append_left c [b] (by omega : i < c.length)]
      exact hlink i hi
    · have hieq : i + 1 = c.length := by omega
      have hi2 : i < c.length := by omega
      have hgb : (c ++ [b]).get ⟨i + 1, h⟩ = b := by
        rw [List.get_eq_getElem]
        exact List.getElem_concat_length c b (i + 1) hieq _
      rw [hgb, List.get_append_left c [b] hi2]
      have hcne : c ≠ [] := by
        intro he
        subst he
        simp at hieq
      rw [hbprev hcne, getLastD_eq_get c hcne (by omega)]
      have hii : c.length - 1 = i := by omega
      simp only [hii]

/-- Counterexample to claim C2: `replace_chain` accepts a strictly longer
candidate of two freshly built difficulty-0 blocks carrying indices 1 and 2
(`is_chain_valid` never inspects the first block), so the installed chain
violates the invariant clause chain[0].index == 0. -/
theorem replace_chain_index_cex :
    (replace_chain hex0 ledger0 [cexB1, cexB2]).1 = true ∧
    ((replace_chain hex0 ledger0 [cexB1, cexB2]).2.chain.headD default).index = 1 :=
  ⟨by with_unfolding_all decide, by with_unfolding_all decide⟩

/-- Claim C2 (amended): construction, `add_transaction` and (successful)
`mine_pending_transactions` preserve the full chain invariant (non-empty,
`chain[i].index == i`, and each block linked to its predecessor's hash).  A
successful `replace_chain` installs a non-empty chain whose adjacent blocks
are hash-linked with consecutive indices, but the installed chain need not
satisfy `chain[0].index == 0`: chain validation never examines the first
block's index. -/
theorem chain_invariant_spec (hex : Hsh → String) :
    (∀ (d : Nat) (r t1 t2 : Rat), chainInvariant (initBlockchain d r t1 t2)) ∧
    (∀ (bc : Blockchain) (t : Transaction), (add_transaction bc t).2.chain = bc.chain) ∧
    (∀ (bc : Blockchain) (addr : String) (t1 t2 : Rat) (fuel : Nat) (blk : Block)
        (bc2 : Blockchain), chainInvariant bc →
      mine_pending_transactions hex bc addr t1 t2 fuel = some (blk, bc2) →
      chainInvariant bc2) ∧
    (∀ (bc : Blockchain) (c : List Block) (bc2 : Blockchain),
      replace_chain hex bc c = (true, bc2) →
      bc2.chain ≠ [] ∧
      ∀ i (h : i + 1 < bc2.chain.length),
        (bc2.chain.get ⟨i + 1, h⟩).previous_hash = (bc2.chain.get ⟨i, by omega⟩).hash ∧
        (bc2.chain.get ⟨i + 1, h⟩).index = (bc2.chain.get ⟨i, by omega⟩).index + 1) := by
  refine ⟨?_, ?_, ?_, ?_⟩
  · intro d r t1 t2
    refine ⟨List.cons_ne_nil _ _, ?_, ?_⟩
    · intro i h
      have h1 : (initBlockchain d r t1 t2).chain.length = 1 := rfl
      have h0 : i = 0 := by omega
      subst h0
      rfl
    · intro i h
      have h1 : (initBlockchain d r t1 t2).chain.length = 1 := rfl
      omega
  · intro bc t
    unfold add_transaction
    split_ifs <;> rfl
  · intro bc addr t1 t2 fuel blk bc2 hinv h
    obtain ⟨hne, hidx, hlink⟩ := hinv
    obtain ⟨-, hbidx, hbprev, -, -, -, -, rfl⟩ :=
      mine_pending_structure hex bc addr t1 t2 fuel blk bc2 h
    have key := append_keeps_invariant bc.chain blk hidx hlink hbidx (fun _ => hbprev)
    exact ⟨by simp, key.1, key.2⟩
  · intro bc c bc2 h
    unfold replace_chain at h
    split_ifs at h with h1 h2
    · simp at h
    · simp at h
    · have hv : is_chain_valid_list hex c = true := eq_true_of_ne_false h2
      simp only [Prod.mk.injEq] at h
      obtain ⟨-, rfl⟩ := h
      unfold is_chain_valid_list at hv
      split_ifs at hv with hc0
      have hchain := (chainLinksValid_eq_chain' hex c).mp hv
      rw [List.chain'_iff_get] at hchain
      refine ⟨?_, ?_⟩
      · show c ≠ []
        intro he
        subst he
        simp at hc0
      · intro i hlt
        have hll : ({ bc with chain := c } : Blockchain).chain.length = c.length := rfl
        have hi : i < c.length - 1 := by omega
        have hval := hchain i hi
        obtain ⟨-, -, -, hp, hidx2⟩ := is_valid_spec hex _ _ hval
        exact ⟨hp, hidx2⟩

/-- Witness for C2 (amended): the four conjuncts at concrete inputs — the
fresh ledger satisfies the invariant, a pool append leaves the chain alone,
the mined two-block ledger satisfies the invariant, and the concretely
replaced chain is non-empty. -/
theorem chain_invariant_spec_witness :
    chainInvariant ledger0 ∧
    (add_transaction ledger0 plainTx).2.chain = ledger0.chain ∧
    chainInvariant minedPair.2 ∧
    replacedLedger.chain ≠ [] :=
  ⟨(chain_invariant_spec hex0).1 2 10 0 0,
    (chain_invariant_spec hex0).2.1 ledger0 plainTx,
    (chain_invariant_spec hex0).2.2.1 bcDiff0 "miner" 0 0 1 minedPair.1 minedPair.2
      ((chain_invariant_spec hex0).1 0 10 0 0) (by with_unfolding_all decide),
    ((chain_invariant_spec hex0).2.2.2 ledger0 [cexB1, cexB2] replacedLedger
      (by with_unfolding_all decide)).1⟩

theorem links_false_of_mid_invalid (hex : Hsh → String) (c : List Block) (i : Nat)
    (hi1 : 1 ≤ i) (hi : i < c.length)
    (hbad : ∀ (h : i < c.length) (p : Block),
      Block.is_valid hex (c.get ⟨i, h⟩) (some p) = false) :
    chainLinksValid hex c = false := by
  by_contra hcon
  have htrue := eq_true_of_ne_false hcon
  have hchain := (chainLinksValid_eq_chain' hex c).mp htrue
  rw [List.chain'_iff_get] at hchain
  have hval := hchain (i - 1) (by omega)
  have hidx1 : i - 1 + 1 = i := by omega
  simp only [hidx1] at hval
  have h2 := hbad (by omega) (c.get ⟨i - 1, by omega⟩)
  rw [h2] at hval
  simp at hval

theorem tamper_invalid (hex : Hsh → String) (b : Block) (j : Nat) (a : Rat)
    (hhash : b.hash = b.hash_block) (hj : j < b.transactions.length)
    (ha : a ≠ (b.transactions.get ⟨j, hj⟩).amount) (p : Option Block) :
    Block.is_valid hex (tamperBlock b j a) p = false := by
  apply is_valid_false_of_hash
  intro hcon
  have h1 : b.hash_block = (tamperBlock b j a).hash_block := by
    rw [← hhash]
    exact hcon
  unfold Block.hash_block at h1
  injection h1 with e1 e2 e3 e4 e5 e6
  have e4 := congrArg (fun l => l[j]?) e3
  dsimp only at e4
  rw [List.getElem?_eq_getElem hj] at e4
  have hset : (tamperBlock b j a).transactions =
      b.transactions.set j { b.transactions.getD j default with amount := a } := rfl
  rw [hset, List.getElem?_set_self (by omega)] at e4
  injection e4 with e5
  exact ha (congrArg Transaction.amount e5).symm

/-- Counterexample to claim C3: on the freshly mined two-block chain
(difficulty 0), mutating the amount of the genesis block's transaction from 0
to 999 leaves `is_chain_valid` true — the loop starts at position 1 and never
re-validates the genesis block, and the successor's `previous_hash` is
compared against the genesis block's stored (stale) hash field. -/
theorem genesis_tamper_cex :
    mine_pending_transactions hex0 bcDiff0 "miner" 0 0 1 = some (minedPair.1, minedPair.2) ∧
    gTampered.transactions ≠ (minedPair.2.chain.headD default).transactions ∧
    is_chain_valid hex0 tamperedLedger = true :=
  ⟨by with_unfolding_all decide, by with_unfolding_all decide, by with_unfolding_all decide⟩

/-- Claim C3 (amended): a freshly-mined chain always passes `is_chain_valid`
(the fresh ledger passes, and every successful mining step preserves
validity); mutating the amount of any single transaction inside any stored
block at position 1 or later (without re-mining) makes `is_chain_valid`
false; but the same mutation inside the genesis block goes undetected, as the
counterexample shows. -/
theorem chain_validity_tamper_spec (hex : Hsh → String) :
    (∀ (d : Nat) (r t1 t2 : Rat), is_chain_valid hex (initBlockchain d r t1 t2) = true) ∧
    (∀ (bc : Blockchain) (addr : String) (t1 t2 : Rat) (fuel : Nat) (blk : Block)
        (bc2 : Blockchain),
      (get_latest_block bc).index + 1 = bc.chain.length →
      is_chain_valid hex bc = true →
      mine_pending_transactions hex bc addr t1 t2 fuel = some (blk, bc2) →
      is_chain_valid hex bc2 = true ∧
      (get_latest_block bc2).index + 1 = bc2.chain.length) ∧
    (∀ (bc : Blockchain) (i j : Nat) (a : Rat) (hi : i < bc.chain.length),
      1 ≤ i → is_chain_valid hex bc = true →
      ∀ (hj : j < (bc.chain.get ⟨i, hi⟩).transactions.length),
      a ≠ ((bc.chain.get ⟨i, hi⟩).transactions.get ⟨j, hj⟩).amount →
      is_chain_valid hex
        { bc with chain :=
            bc.chain.set i (tamperBlock (bc.chain.get ⟨i, hi⟩) j a) } = false) := by
  refine ⟨?_, ?_, ?_⟩
  · intro d r t1 t2
    rfl
  · intro bc addr t1 t2 fuel blk bc2 hlatest hvalid h
    obtain ⟨-, hbidx, hbprev, hmr, hhash, hdiff, hpre, rfl⟩ :=
      mine_pending_structure hex bc addr t1 t2 fuel blk bc2 h
    have hv1 : chainLinksValid hex bc.chain = true := by
      unfold is_chain_valid is_chain_valid_list at hvalid
      split_ifs at hvalid
      exact hvalid
    unfold get_latest_block at hlatest hbprev ⊢
    have hbvalid : Block.is_valid hex blk (some (bc.chain.getLastD default)) = true := by
      apply is_valid_intro
      · exact hhash
      · exact hmr
      · rw [hdiff]
        exact hpre
      · exact hbprev
      · rw [hbidx, ← hlatest]
    have hchain2 : chainLinksValid hex (bc.chain ++ [blk]) = true := by
      rw [chainLinksValid_eq_chain']
      apply List.Chain'.append
      · exact (chainLinksValid_eq_chain' hex bc.chain).mp hv1
      · exact List.chain'_singleton blk
      · intro x hx y hy
        simp only [List.head?_cons, Option.mem_def, Option.some.injEq] at hy
        subst hy
        have hxe : bc.chain.getLastD default = x :=
          getLastD_of_getLast? (Option.mem_def.mp hx) default
        rw [← hxe]
        exact hbvalid
    constructor
    · unfold is_chain_valid is_chain_valid_list
      dsimp only
      rw [if_neg (by simp)]
      exact hchain2
    · dsimp only
      rw [List.getLastD_concat, hbidx]
      simp
  · intro bc i j a hi h1le hvalid hj ha
    have hv1 : chainLinksValid hex bc.chain = true := by
      unfold is_chain_valid is_chain_valid_list at hvalid
      split_ifs at hvalid
      exact hvalid
    have hchain := (chainLinksValid_eq_chain' hex bc.chain).mp hv1
    rw [List.chain'_iff_get] at hchain
    have hval := hchain (i - 1) (by omega)
    have hidx1 : i - 1 + 1 = i := by omega
    simp only [hidx1] at hval
    obtain ⟨hbh, -, -, -, -⟩ := is_valid_spec hex _ _ hval
    unfold is_chain_valid is_chain_valid_list
    dsimp only
    rw [if_neg (by rw [List.length_set]; omega)]
    apply links_false_of_mid_invalid hex _ i h1le (by rw [List.length_set]; omega)
    intro hproof p
    have hgi : (bc.chain.set i (tamperBlock (bc.chain.get ⟨i, hi⟩) j a)).get ⟨i, hproof⟩ =
        tamperBlock (bc.chain.get ⟨i, hi⟩) j a := by
      rw [List.get_eq_getElem]
      exact List.getElem_set_self hproof
    rw [hgi]
    exact tamper_invalid hex _ j a hbh hj ha (some p)

/-- Witness for C3 (amended): on concrete inputs — the fresh difficulty-0
ledger passes validation, mining preserves validation on the two-block
ledger, and tampering the amount of the reward transaction inside the block
at position 1 breaks validation. -/
theorem chain_validity_tamper_spec_witness :
    is_chain_valid hex0 bcDiff0 = true ∧
    is_chain_valid hex0 minedPair.2 = true ∧
    is_chain_valid hex0 tamperedTail = false :=
  ⟨(chain_validity_tamper_spec hex0).1 0 10 0 0,
    ((chain_validity_tamper_spec hex0).2.1 bcDiff0 "miner" 0 0 1 minedPair.1 minedPair.2
      (by with_unfolding_all decide) ((chain_validity_tamper_spec hex0).1 0 10 0 0)
      (by with_unfolding_all decide)).1,
    (chain_validity_tamper_spec hex0).2.2 minedPair.2 1 0 999
      (by with_unfolding_all decide) (by with_unfolding_all decide)
      (by with_unfolding_all decide) (by with_unfolding_all decide)
      (by with_unfolding_all decide)⟩

theorem padOdd_even {l : List Hsh} (h : l.length % 2 = 0) : padOdd l = l := by
  unfold padOdd
  rw [if_neg (by omega)]

theorem padOdd_odd {l : List Hsh} (h : l.length % 2 = 1) :
    padOdd l = l ++ [l.getLastD Hsh.empty] := by
  unfold padOdd
  rw [if_pos (by omega)]

theorem merkleRounds_succ_of_big {l : List Hsh} (fuel : Nat) (h2 : 2 ≤ l.length) :
    merkleRounds (fuel + 1) l = merkleRounds fuel (pairUp (padOdd l)) := by
  simp only [merkleRounds]
  rw [if_neg (by omega)]

theorem merkle_odd_append (txs : List Transaction) (t : Transaction)
    (hlast : txs.getLast? = some t) (hodd : txs.length % 2 = 1) (h3 : 3 ≤ txs.length) :
    calculate_merkle_root (txs ++ [t]) = calculate_merkle_root txs := by
  have hne : txs ≠ [] := by
    intro he
    subst he
    simp at hlast
  have hne2 : txs ++ [t] ≠ [] := by simp
  unfold calculate_merkle_root
  rw [if_neg hne2, if_neg hne]
  dsimp only
  rw [List.map_append]
  simp only [List.map_cons, List.map_nil]
  set hs := txs.map Transaction.calculate_hash with hhs
  have hlen : hs.length = txs.length := by rw [hhs, List.length_map]
  have hgl : hs.getLastD Hsh.empty = Transaction.calculate_hash t := by
    apply getLastD_of_getLast?
    rw [hhs, List.getLast?_map, hlast]
    rfl
  have hlen2 : (hs ++ [Transaction.calculate_hash t]).length = txs.length + 1 := by
    simp [hlen]
  rw [hlen2, hlen]
  rw [merkleRounds_succ_of_big txs.length (by rw [hlen2]; omega)]
  rw [padOdd_even (by rw [hlen2]; omega)]
  rw [merkleRounds_fuel txs.length (txs.length + 1) hs (by omega) (by omega)]
  rw [merkleRounds_succ_of_big txs.length (by omega)]
  rw [padOdd_odd (by omega), hgl]

/-- Counterexample to claim C7: for the odd-length list `[A]`, appending a
duplicate of the last element changes the Merkle root (the loop never runs on
a singleton, so its root is the bare transaction hash, while the two-element
list hashes a concatenation); and for the even-length list `[A,B,B,B,B,B]`,
appending a duplicate of the last element leaves the root unchanged (both
sides reduce to the same level `[H(AB), H(BB), H(BB)]` after one round). -/
theorem merkle_duplicate_cex :
    calculate_merkle_root ([txA] ++ [txA]) ≠ calculate_merkle_root [txA] ∧
    calculate_merkle_root ([txA, txB, txB, txB, txB, txB] ++ [txB]) =
      calculate_merkle_root [txA, txB, txB, txB, txB, txB] :=
  ⟨by decide, by decide⟩

/-- Claim C7 (amended): appending a duplicate of the last element preserves
the Merkle root for every odd-length list of three or more transactions; for
a single-transaction list it changes the root; and for even, non-zero length
the root may change (e.g. `[A,B]`) or stay unchanged (e.g. `[A,B,B,B,B,B]`),
so neither direction holds universally for even lengths. -/
theorem merkle_duplicate_last_spec :
    (∀ (txs : List Transaction) (t : Transaction), txs.getLast? = some t →
      txs.length % 2 = 1 → 3 ≤ txs.length →
      calculate_merkle_root (txs ++ [t]) = calculate_merkle_root txs) ∧
    (∀ t : Transaction,
      calculate_merkle_root ([t] ++ [t]) ≠ calculate_merkle_root [t]) ∧
    calculate_merkle_root ([txA, txB] ++ [txB]) ≠ calculate_merkle_root [txA, txB] ∧
    calculate_merkle_root ([txA, txB, txB, txB, txB, txB] ++ [txB]) =
      calculate_merkle_root [txA, txB, txB, txB, txB, txB] := by
  refine ⟨merkle_odd_append, ?_, by decide, by decide⟩
  intro t hcon
  have e1 : calculate_merkle_root [t] = Hsh.txd t := rfl
  have e2 : calculate_merkle_root ([t] ++ [t]) =
      Hsh.node (Hsh.txd t) (Hsh.txd t) := by with_unfolding_all rfl
  rw [e1, e2] at hcon
  exact Hsh.noConfusion hcon

/-- Witness for C7 (amended): the odd-length rule at the concrete list
`[A,B,A]`, and the singleton change at `[B]`. -/
theorem merkle_duplicate_last_spec_witness :
    calculate_merkle_root ([txA, txB, txA] ++ [txA]) =
      calculate_merkle_root [txA, txB, txA] ∧
    calculate_merkle_root ([txB] ++ [txB]) ≠ calculate_merkle_root [txB] :=
  ⟨merkle_duplicate_last_spec.1 [txA, txB, txA] txA (by decide) (by decide) (by decide),
    merkle_duplicate_last_spec.2.1 txB⟩
